import Mathlib

/-
Verification of the pixel-sort core of `psort` (src/main.rs).

The program sorts, within each image row, the maximal contiguous runs of
pixels whose heuristic value lies in a configured range (optionally
inverted, optionally masked by alpha), leaving the other pixels in place.

The embedding below translates the heuristic functions (`pixel_max`,
`pixel_min`, `pixel_chroma`, `pixel_hue`, `SortHeuristic::func`) and the
per-row segmentation-and-sort loop of `main` into Lean.  u8 channel values
are embedded as natural numbers; every intermediate computation of the
source stays within the range of its machine type on u8 inputs, so the
Nat translation is exact there (the individual comments note why).
-/

/-- Model of `image::Rgba<u8>`: the four 8-bit channels
`data[0] = r`, `data[1] = g`, `data[2] = b`, `data[3] = a`. -/
structure Rgba where
  r : Nat
  g : Nat
  b : Nat
  a : Nat
deriving DecidableEq, Repr

instance : Inhabited Rgba := ⟨⟨0, 0, 0, 0⟩⟩

/-- Model of `fn pixel_max`: `data[..3].iter().max()` — the maximum of the three
color channels (`unwrap_or_default` is dead for a 3-element slice). -/
def pixel_max (p : Rgba) : Nat :=
  max p.r (max p.g p.b)

/-- Model of `fn pixel_min`: `data[..3].iter().min()`. -/
def pixel_min (p : Rgba) : Nat :=
  min p.r (min p.g p.b)

/-- Model of `fn pixel_chroma`: `pixel_max(pixel) - pixel_min(pixel)`.  u8
subtraction never underflows here because max ≥ min, so Nat subtraction
is exact. -/
def pixel_chroma (p : Rgba) : Nat :=
  pixel_max p - pixel_min p

/-- Model of `(x as i16 - y as i16).abs() as u8` for two channel values:
the absolute difference.  The i16 widening makes the subtraction exact and
the result is at most 255, so the `as u8` cast is lossless on u8 inputs. -/
def absDiff (x y : Nat) : Nat :=
  if y ≤ x then x - y else y - x

/-- Model of `data[..3].iter().enumerate().max_by_key(|&(_, e)| e)` from
`pixel_hue`, returning `(index, value)`.  `Iterator::max_by_key` folds
left to right and replaces the current maximum whenever the new key
compares greater *or equal*, so when several channels are tied for the
maximum the LAST (highest-index) one is returned. -/
def hue_max_channel (p : Rgba) : Nat × Nat :=
  let m0 : Nat × Nat := (0, p.r)
  let m1 : Nat × Nat := if m0.2 ≤ p.g then (1, p.g) else m0
  if m1.2 ≤ p.b then (2, p.b) else m1

/-- Model of `fn pixel_hue`: 0 when chroma is 0; otherwise dispatch on which
channel `max_by_key` selects as the maximum and apply the corresponding
truncating-integer hue formula.  The `_ => 0` arm mirrors the
(unreachable) catch-all of the Rust `match`. -/
def pixel_hue (p : Rgba) : Nat :=
  let c := pixel_chroma p
  if c = 0 then 0
  else
    match (hue_max_channel p).1 with
    | 0 => absDiff p.g p.b / c * 43
    | 1 => absDiff p.b p.r / c * 43 + 85
    | 2 => absDiff p.r p.g / c * 43 + 171
    | _ => 0

/-- Model of `enum SortHeuristic`. -/
inductive SortHeuristic where
  | luma
  | brightness
  | max
  | min
  | chroma
  | hue
  | saturation
  | value
  | red
  | blue
  | green
deriving DecidableEq, Repr

/-- Model of `SortHeuristic::func`: the pure pixel-to-scalar function each variant
denotes.  `Luma`'s `>> 3` on a u16 is division by 8; `Brightness` adds
four u8 terms whose total never exceeds (r+g+b)/3 ≤ 255, so u8 addition
does not overflow and the Nat translation is exact. -/
def SortHeuristic.func : SortHeuristic → Rgba → Nat
  | .red => fun p => p.r
  | .green => fun p => p.g
  | .blue => fun p => p.b
  | .max => pixel_max
  | .min => pixel_min
  | .chroma => pixel_chroma
  | .hue => pixel_hue
  | .saturation => fun p =>
      match pixel_max p with
      | 0 => 0
      | v => pixel_chroma p / v
  | .value => pixel_max
  | .brightness => fun p =>
      p.r / 3 + p.g / 3 + p.b / 3 + (p.r % 3 + p.g % 3 + p.b % 3) / 3
  | .luma => fun p => (p.r * 2 + p.g + p.b * 4) / 8

/-- The configuration fields of `struct Cli` that the row-sorting loop
consumes, in their declaration order.  The selected heuristic is carried
as the function itself (`sort_fn = cli.function.func()` in `main`);
theorems quantify over an arbitrary `sort_fn`, hence over every variant.
The pure-I/O fields (`file`, `output`, `vertical`) are outside the core. -/
structure Cli where
  minimum : Nat
  maximum : Nat
  sort_fn : Rgba → Nat
  reverse : Bool
  invert : Bool
  mask_alpha : Bool

/-- Model of `mask_fn` from `main`: `|p| !(cli.mask_alpha && p.data[3] == 0)`. -/
def mask_fn (cli : Cli) (p : Rgba) : Bool :=
  !(cli.mask_alpha && p.a == 0)

/-- The predicate of the first `take_while` in the row loop, deciding that
a pixel belongs to the current sortable run:
`(l >= cli.minimum && l <= cli.maximum) != cli.invert && mask_fn(p)`
where `l = sort_fn(p)`. -/
def sortable (cli : Cli) (p : Rgba) : Bool :=
  let l := cli.sort_fn p
  ((decide (cli.minimum ≤ l) && decide (l ≤ cli.maximum)) != cli.invert) && mask_fn cli p

/-- The predicate of the second `take_while` in the row loop, deciding
that a pixel belongs to the current skip run:
`(l < cli.minimum || l > cli.maximum) != cli.invert || !mask_fn(p)`. -/
def skip_pred (cli : Cli) (p : Rgba) : Bool :=
  let l := cli.sort_fn p
  ((decide (l < cli.minimum) || decide (cli.maximum < l)) != cli.invert) || !mask_fn cli p

/-- The comparator closure passed to `sort_unstable_by`:
`sort_fn(l).cmp(&sort_fn(r))`, with the operands swapped when
`cli.reverse` is set. -/
def sort_le (cli : Cli) (x y : Rgba) : Prop :=
  if cli.reverse then cli.sort_fn y ≤ cli.sort_fn x else cli.sort_fn x ≤ cli.sort_fn y

instance (cli : Cli) : DecidableRel (sort_le cli) := fun x y => by
  unfold sort_le
  split <;> infer_instance

instance (cli : Cli) : IsTotal Rgba (sort_le cli) :=
  ⟨by
    intro x y
    cases hr : cli.reverse <;> simp [sort_le, hr] <;> exact Nat.le_total _ _⟩

instance (cli : Cli) : IsTrans Rgba (sort_le cli) :=
  ⟨by
    intro x y z h1 h2
    cases hr : cli.reverse <;> simp [sort_le, hr] at h1 h2 ⊢ <;> omega⟩

/-- Model of `row[ctr..ctr + numel].sort_unstable_by(comparator)`: a comparator
sort of one sortable run.  The source guarantees only some permutation
that is sorted by the comparator (tie order is unspecified by
`sort_unstable_by`); it is modelled by insertion sort with the same
comparator, which produces such a permutation. -/
def sort_seg (cli : Cli) (seg : List Rgba) : List Rgba :=
  List.insertionSort (sort_le cli) seg

/-- The `while ctr < w` loop of `main`, acting on the suffix of the row
that starts at the cursor `ctr` (advancing `ctr` past the maximal
`take_while` prefix leaves exactly the corresponding `dropWhile`):
scan the maximal sortable prefix, sort it in place, then skip the maximal
skip-predicate prefix, and repeat.  `fuel` bounds the number of loop
iterations; `fuel = l.length` always suffices because every iteration
consumes at least one pixel. -/
def sort_row_aux (cli : Cli) : Nat → List Rgba → List Rgba
  | _, [] => []
  | 0, l => l
  | fuel + 1, x :: xs =>
    let row := x :: xs
    let good := row.takeWhile (sortable cli)
    let rest := row.dropWhile (sortable cli)
    let skipped := rest.takeWhile (skip_pred cli)
    let rest2 := rest.dropWhile (skip_pred cli)
    sort_seg cli good ++ skipped ++ sort_row_aux cli fuel rest2

/-- Definition of `sort_row`: one full execution of the per-row loop body of `main` on
a row. -/
def sort_row (cli : Cli) (l : List Rgba) : List Rgba :=
  sort_row_aux cli l.length l

/-- The maximal sortable runs of a row, in left-to-right order: the run
decomposition that the row loop scans (a sortable run, then a skip run,
repeatedly). -/
def good_runs_aux (cli : Cli) : Nat → List Rgba → List (List Rgba)
  | _, [] => []
  | 0, _ => []
  | fuel + 1, x :: xs =>
    let row := x :: xs
    row.takeWhile (sortable cli) ::
      good_runs_aux cli fuel ((row.dropWhile (sortable cli)).dropWhile (skip_pred cli))

/-- The maximal sortable runs of a row. -/
def good_runs (cli : Cli) (l : List Rgba) : List (List Rgba) :=
  good_runs_aux cli l.length l

/-- The set of positions of a row classified as sortable by the row
loop's predicate. -/
def sortable_positions (cli : Cli) (row : List Rgba) : Finset Nat :=
  (Finset.range row.length).filter fun i => sortable cli (row.getD i default) = true

/-- The set of positions of a row whose pixel passes the alpha mask. -/
def mask_positions (cli : Cli) (row : List Rgba) : Finset Nat :=
  (Finset.range row.length).filter fun i => mask_fn cli (row.getD i default) = true

/-- Modelled from the spec sentence under claim C2: the Hue formula with
the "which channel is maximum" tie resolved in favor of the FIRST channel
in index order (R, then G, then B). -/
def pixel_hue_first_tiebreak (p : Rgba) : Nat :=
  let c := pixel_chroma p
  if c = 0 then 0
  else if p.g ≤ p.r ∧ p.b ≤ p.r then absDiff p.g p.b / c * 43
  else if p.b ≤ p.g then absDiff p.b p.r / c * 43 + 85
  else absDiff p.r p.g / c * 43 + 171

/-- The Hue formula with the "which channel is maximum" tie resolved in
favor of the LAST channel in index order (B, then G, then R): the B
branch applies whenever B attains the maximum, else the G branch whenever
G attains it, else the R branch. -/
def pixel_hue_last_tiebreak (p : Rgba) : Nat :=
  let c := pixel_chroma p
  if c = 0 then 0
  else if p.r ≤ p.b ∧ p.g ≤ p.b then absDiff p.r p.g / c * 43 + 171
  else if p.r ≤ p.g then absDiff p.b p.r / c * 43 + 85
  else absDiff p.g p.b / c * 43

/-! ### Basic facts about the two scan predicates -/

/-- The Boolean shape shared by the two scan predicates, as a tautology:
`(¬a ≠ i) ∨ ¬m` is equivalent to `¬((a ≠ i) ∧ m)`. -/
theorem skip_pred_bool_shape :
    ∀ a b i m : Bool, (((!a || !b) != i) || !m) = !(((a && b) != i) && m) := by
  decide

/-- The skip-scan predicate is the exact Boolean complement of the
sortable-scan predicate: `(¬in_range) ≠ invert` is `in_range = invert`,
and the `||` with `!mask` de Morgan-dualizes the `&&` with `mask`. -/
theorem skip_pred_eq_not_sortable (cli : Cli) (p : Rgba) :
    skip_pred cli p = !sortable cli p := by
  simp only [skip_pred, sortable]
  have e1 : decide (cli.sort_fn p < cli.minimum)
      = !decide (cli.minimum ≤ cli.sort_fn p) := by
    simp [← decide_not, Nat.not_le]
  have e2 : decide (cli.maximum < cli.sort_fn p)
      = !decide (cli.sort_fn p ≤ cli.maximum) := by
    simp [← decide_not, Nat.not_le]
  rw [e1, e2]
  exact skip_pred_bool_shape _ _ _ _

theorem skip_pred_fun (cli : Cli) :
    skip_pred cli = fun p => !sortable cli p :=
  funext (skip_pred_eq_not_sortable cli)

/-! ### Generic list lemmas used by the row-loop proofs -/

theorem length_dropWhile_le' (p : Rgba → Bool) (l : List Rgba) :
    (l.dropWhile p).length ≤ l.length := by
  induction l with
  | nil => simp
  | cons x t ih =>
    by_cases h : p x
    · simp only [List.dropWhile_cons, h, if_true, List.length_cons]
      omega
    · simp [List.dropWhile_cons, h]

theorem takeWhile_append_all (p : Rgba → Bool) (l1 l2 : List Rgba)
    (h : ∀ x ∈ l1, p x = true) :
    (l1 ++ l2).takeWhile p = l1 ++ l2.takeWhile p := by
  induction l1 with
  | nil => simp
  | cons x t ih =>
    have hx : p x = true := h x (List.mem_cons_self x t)
    simp only [List.cons_append, List.takeWhile_cons, hx, if_true]
    rw [ih fun y hy => h y (List.mem_cons_of_mem x hy)]

theorem dropWhile_append_all (p : Rgba → Bool) (l1 l2 : List Rgba)
    (h : ∀ x ∈ l1, p x = true) :
    (l1 ++ l2).dropWhile p = l2.dropWhile p := by
  induction l1 with
  | nil => simp
  | cons x t ih =>
    have hx : p x = true := h x (List.mem_cons_self x t)
    simp only [List.cons_append, List.dropWhile_cons, hx, if_true]
    exact ih fun y hy => h y (List.mem_cons_of_mem x hy)

theorem dropWhile_head_false (p : Rgba → Bool) :
    ∀ (l : List Rgba) (y : Rgba) (ys : List Rgba),
      l.dropWhile p = y :: ys → p y = false := by
  intro l
  induction l with
  | nil => intro y ys h; simp at h
  | cons x t ih =>
    intro y ys h
    by_cases hx : p x
    · rw [List.dropWhile_cons, if_pos hx] at h
      exact ih y ys h
    · rw [List.dropWhile_cons, if_neg hx] at h
      cases h
      exact Bool.eq_false_iff.mpr hx

theorem dropWhile_eq_self_head_false (p : Rgba → Bool) (l : List Rgba)
    (h : ∀ y ys, l = y :: ys → p y = false) :
    l.dropWhile p = l := by
  cases l with
  | nil => simp
  | cons x t => rw [List.dropWhile_cons, if_neg]; simp [h x t rfl]

/-! ### Basic facts about `sort_seg` -/

theorem sort_seg_perm (cli : Cli) (s : List Rgba) : (sort_seg cli s).Perm s :=
  List.perm_insertionSort (sort_le cli) s

theorem sort_seg_length (cli : Cli) (s : List Rgba) :
    (sort_seg cli s).length = s.length :=
  (sort_seg_perm cli s).length_eq

theorem mem_sort_seg (cli : Cli) (s : List Rgba) {x : Rgba} (h : x ∈ sort_seg cli s) :
    x ∈ s :=
  (sort_seg_perm cli s).mem_iff.mp h

theorem sort_seg_sorted (cli : Cli) (s : List Rgba) :
    List.Sorted (sort_le cli) (sort_seg cli s) :=
  List.sorted_insertionSort (sort_le cli) s

theorem sort_seg_of_sorted (cli : Cli) {s : List Rgba}
    (h : List.Sorted (sort_le cli) s) : sort_seg cli s = s :=
  List.Sorted.insertionSort_eq h

theorem sort_seg_idem (cli : Cli) (s : List Rgba) :
    sort_seg cli (sort_seg cli s) = sort_seg cli s :=
  sort_seg_of_sorted cli (sort_seg_sorted cli s)

theorem sortable_of_mem_sort_seg_takeWhile (cli : Cli) (l : List Rgba) {x : Rgba}
    (h : x ∈ sort_seg cli (l.takeWhile (sortable cli))) :
    sortable cli x = true :=
  List.mem_takeWhile_imp (mem_sort_seg cli _ h)

/-! ### Unfolding and progress of the row loop -/

theorem sort_row_aux_cons (cli : Cli) (fuel : Nat) (x : Rgba) (xs : List Rgba) :
    sort_row_aux cli (fuel + 1) (x :: xs) =
      sort_seg cli ((x :: xs).takeWhile (sortable cli)) ++
        ((x :: xs).dropWhile (sortable cli)).takeWhile (skip_pred cli) ++
        sort_row_aux cli fuel
          (((x :: xs).dropWhile (sortable cli)).dropWhile (skip_pred cli)) :=
  rfl

theorem rest2_length_lt (cli : Cli) (x : Rgba) (xs : List Rgba) :
    (((x :: xs).dropWhile (sortable cli)).dropWhile (skip_pred cli)).length <
      (x :: xs).length := by
  by_cases h : sortable cli x
  · have h1 : (x :: xs).dropWhile (sortable cli) = xs.dropWhile (sortable cli) := by
      rw [List.dropWhile_cons, if_pos h]
    rw [h1]
    calc ((xs.dropWhile (sortable cli)).dropWhile (skip_pred cli)).length
        ≤ (xs.dropWhile (sortable cli)).length := length_dropWhile_le' _ _
      _ ≤ xs.length := length_dropWhile_le' _ _
      _ < (x :: xs).length := by simp
  · have h1 : (x :: xs).dropWhile (sortable cli) = x :: xs := by
      rw [List.dropWhile_cons, if_neg h]
    have h2 : skip_pred cli x = true := by
      rw [skip_pred_eq_not_sortable]
      simp [Bool.eq_false_iff.mpr h]
    rw [h1, List.dropWhile_cons, if_pos h2]
    calc (xs.dropWhile (skip_pred cli)).length
        ≤ xs.length := length_dropWhile_le' _ _
      _ < (x :: xs).length := by simp

/-- The amount of fuel does not matter as long as it is at least the
length of the remaining row: with either budget the loop runs to
completion. -/
theorem sort_row_aux_fuel_irrel (cli : Cli) :
    ∀ fuel₁ fuel₂ (l : List Rgba), l.length ≤ fuel₁ → l.length ≤ fuel₂ →
      sort_row_aux cli fuel₁ l = sort_row_aux cli fuel₂ l := by
  intro fuel₁
  induction fuel₁ with
  | zero =>
    intro fuel₂ l h1 _
    have : l = [] := List.eq_nil_of_length_eq_zero (Nat.le_zero.mp h1)
    subst this
    cases fuel₂ <;> rfl
  | succ fuel ih =>
    intro fuel₂ l h1 h2
    cases l with
    | nil => cases fuel₂ <;> rfl
    | cons x xs =>
      cases fuel₂ with
      | zero => simp at h2
      | succ fuel₂' =>
        rw [sort_row_aux_cons, sort_row_aux_cons]
        have hlt := rest2_length_lt cli x xs
        have hr : (((x :: xs).dropWhile (sortable cli)).dropWhile
            (skip_pred cli)).length ≤ fuel := by
          simp only [List.length_cons] at h1 hlt ⊢
          omega
        have hr2 : (((x :: xs).dropWhile (sortable cli)).dropWhile
            (skip_pred cli)).length ≤ fuel₂' := by
          simp only [List.length_cons] at h2 hlt ⊢
          omega
        rw [ih fuel₂' _ hr hr2]

/-- Unfolding of `sort_row` on a nonempty row: sort the maximal sortable
prefix, keep the following skip run, recurse on the remainder. -/
theorem sort_row_cons (cli : Cli) (x : Rgba) (xs : List Rgba) :
    sort_row cli (x :: xs) =
      sort_seg cli ((x :: xs).takeWhile (sortable cli)) ++
        ((x :: xs).dropWhile (sortable cli)).takeWhile (skip_pred cli) ++
        sort_row cli (((x :: xs).dropWhile (sortable cli)).dropWhile (skip_pred cli)) := by
  have hlt := rest2_length_lt cli x xs
  unfold sort_row
  rw [show (x :: xs).length = xs.length + 1 from rfl, sort_row_aux_cons]
  rw [sort_row_aux_fuel_irrel cli xs.length _ _ (by simp at hlt ⊢; omega) le_rfl]

theorem sort_row_nil (cli : Cli) : sort_row cli [] = [] := rfl

/-- The row after sorting is a permutation of the row before. -/
theorem sort_row_perm_bounded (cli : Cli) :
    ∀ (n : Nat) (l : List Rgba), l.length ≤ n → (sort_row cli l).Perm l := by
  intro n
  induction n with
  | zero =>
    intro l h
    have : l = [] := List.eq_nil_of_length_eq_zero (Nat.le_zero.mp h)
    subst this
    simp [sort_row_nil]
  | succ n ih =>
    intro l hlen
    cases l with
    | nil => simp [sort_row_nil]
    | cons x xs =>
      rw [sort_row_cons]
      have hsplit1 : (x :: xs).takeWhile (sortable cli) ++
          (x :: xs).dropWhile (sortable cli) = x :: xs :=
        List.takeWhile_append_dropWhile (sortable cli) (x :: xs)
      have hsplit2 : ((x :: xs).dropWhile (sortable cli)).takeWhile (skip_pred cli) ++
          ((x :: xs).dropWhile (sortable cli)).dropWhile (skip_pred cli) =
            (x :: xs).dropWhile (sortable cli) :=
        List.takeWhile_append_dropWhile (skip_pred cli) _
      have hrec : (sort_row cli (((x :: xs).dropWhile (sortable cli)).dropWhile
          (skip_pred cli))).Perm
            (((x :: xs).dropWhile (sortable cli)).dropWhile (skip_pred cli)) := by
        apply ih
        have := rest2_length_lt cli x xs
        simp only [List.length_cons] at this hlen
        omega
      have hstep : (sort_seg cli ((x :: xs).takeWhile (sortable cli)) ++
          (((x :: xs).dropWhile (sortable cli)).takeWhile (skip_pred cli) ++
            sort_row cli (((x :: xs).dropWhile (sortable cli)).dropWhile
              (skip_pred cli)))).Perm
          ((x :: xs).takeWhile (sortable cli) ++
            (((x :: xs).dropWhile (sortable cli)).takeWhile (skip_pred cli) ++
              ((x :: xs).dropWhile (sortable cli)).dropWhile (skip_pred cli))) :=
        (sort_seg_perm cli _).append (List.Perm.append_left _ hrec)
      have heq : (x :: xs).takeWhile (sortable cli) ++
          (((x :: xs).dropWhile (sortable cli)).takeWhile (skip_pred cli) ++
            ((x :: xs).dropWhile (sortable cli)).dropWhile (skip_pred cli)) = x :: xs := by
        rw [hsplit2, hsplit1]
      rw [List.append_assoc]
      refine hstep.trans ?_
      rw [heq]

/-- The row after sorting is a permutation of the row before. -/
theorem sort_row_perm (cli : Cli) (l : List Rgba) : (sort_row cli l).Perm l :=
  sort_row_perm_bounded cli l.length l le_rfl

/-- The row after sorting has the same length as before. -/
theorem sort_row_length (cli : Cli) (l : List Rgba) :
    (sort_row cli l).length = l.length :=
  (sort_row_perm cli l).length_eq

/-! ### How `sort_row` interacts with the run decomposition -/

/-- The head of the suffix left after a skip-run scan is sortable. -/
theorem rest2_head_sortable (cli : Cli) (R : List Rgba) :
    ∀ y ys, R.dropWhile (skip_pred cli) = y :: ys → sortable cli y = true := by
  intro y ys h
  have := dropWhile_head_false (skip_pred cli) R y ys h
  rw [skip_pred_eq_not_sortable] at this
  simpa using this

/-- If the skip-run scan comes up empty, the whole suffix it scanned was
empty (its head, if any, would fail `sortable` and so pass `skip_pred`). -/
theorem skip_run_nil (cli : Cli) (l : List Rgba)
    (h : (l.dropWhile (sortable cli)).takeWhile (skip_pred cli) = []) :
    l.dropWhile (sortable cli) = [] := by
  cases hR : l.dropWhile (sortable cli) with
  | nil => rfl
  | cons y ys =>
    have hy : sortable cli y = false := dropWhile_head_false (sortable cli) l y ys hR
    have hsk : skip_pred cli y = true := by
      rw [skip_pred_eq_not_sortable, hy]
      rfl
    rw [hR, List.takeWhile_cons, if_pos hsk] at h
    cases h

/-- A nonempty output of `sort_row` on a row whose head is sortable starts
with a sortable pixel. -/
theorem sort_row_head_sortable (cli : Cli) (l : List Rgba)
    (hhead : ∀ y ys, l = y :: ys → sortable cli y = true) :
    ∀ z zs, sort_row cli l = z :: zs → sortable cli z = true := by
  intro z zs hz
  cases l with
  | nil => rw [sort_row_nil] at hz; cases hz
  | cons y ys =>
    have hy : sortable cli y = true := hhead y ys rfl
    have hG : (y :: ys).takeWhile (sortable cli) = y :: ys.takeWhile (sortable cli) := by
      rw [List.takeWhile_cons, if_pos hy]
    have hGlen : 0 < (sort_seg cli ((y :: ys).takeWhile (sortable cli))).length := by
      rw [sort_seg_length, hG]
      simp
    obtain ⟨w, ws, hw⟩ := List.exists_cons_of_ne_nil
      (List.ne_nil_of_length_pos hGlen)
    rw [sort_row_cons, hw] at hz
    simp only [List.cons_append] at hz
    have hzw : w = z := (List.cons.injEq _ _ _ _).mp hz |>.1
    subst hzw
    exact sortable_of_mem_sort_seg_takeWhile cli (y :: ys)
      (hw ▸ List.mem_cons_self w ws)

/-- Scanning a skip run over `S ++ sort_row cli R2` recovers exactly `S`
when every pixel of `S` is in the skip run and `R2` starts (if nonempty)
with a sortable pixel. -/
theorem takeWhile_skip_append_sort_row (cli : Cli) (S R2 : List Rgba)
    (hS : ∀ x ∈ S, skip_pred cli x = true)
    (hR2 : ∀ y ys, R2 = y :: ys → sortable cli y = true) :
    (S ++ sort_row cli R2).takeWhile (skip_pred cli) = S := by
  rw [takeWhile_append_all (skip_pred cli) S _ hS]
  cases hr : sort_row cli R2 with
  | nil => simp
  | cons z zs =>
    have hz : sortable cli z = true := sort_row_head_sortable cli R2 hR2 z zs hr
    have hsk : skip_pred cli z = false := by
      rw [skip_pred_eq_not_sortable, hz]
      rfl
    rw [List.takeWhile_cons, if_neg (by simp [hsk])]
    simp

/-- Dropping a skip run over `S ++ sort_row cli R2` leaves exactly
`sort_row cli R2` under the same hypotheses. -/
theorem dropWhile_skip_append_sort_row (cli : Cli) (S R2 : List Rgba)
    (hS : ∀ x ∈ S, skip_pred cli x = true)
    (hR2 : ∀ y ys, R2 = y :: ys → sortable cli y = true) :
    (S ++ sort_row cli R2).dropWhile (skip_pred cli) = sort_row cli R2 := by
  rw [dropWhile_append_all (skip_pred cli) S _ hS]
  apply dropWhile_eq_self_head_false
  intro z zs hz
  have := sort_row_head_sortable cli R2 hR2 z zs hz
  rw [skip_pred_eq_not_sortable, this]
  rfl

/-- Unfolding of `sort_row` on a nonempty row, packaged without the cons pattern. -/
theorem sort_row_decomp (cli : Cli) (l : List Rgba) (h : l ≠ []) :
    sort_row cli l =
      sort_seg cli (l.takeWhile (sortable cli)) ++
        (l.dropWhile (sortable cli)).takeWhile (skip_pred cli) ++
        sort_row cli ((l.dropWhile (sortable cli)).dropWhile (skip_pred cli)) := by
  cases l with
  | nil => exact absurd rfl h
  | cons x xs => exact sort_row_cons cli x xs

/-- The sortable-run scan over a sorted row recovers exactly the sorted
version of the original sortable run. -/
theorem takeWhile_sortable_sort_row (cli : Cli) (l : List Rgba) :
    (sort_row cli l).takeWhile (sortable cli) =
      sort_seg cli (l.takeWhile (sortable cli)) := by
  cases l with
  | nil => simp [sort_row_nil, sort_seg, List.insertionSort]
  | cons x xs =>
    rw [sort_row_cons, List.append_assoc,
      takeWhile_append_all (sortable cli) _ _
        (fun y hy => sortable_of_mem_sort_seg_takeWhile cli (x :: xs) hy)]
    cases hS : ((x :: xs).dropWhile (sortable cli)).takeWhile (skip_pred cli) with
    | nil =>
      have hR : (x :: xs).dropWhile (sortable cli) = [] := skip_run_nil cli (x :: xs) hS
      rw [hR]
      simp [sort_row_nil]
    | cons s0 S' =>
      have hs0 : skip_pred cli s0 = true :=
        List.mem_takeWhile_imp (hS ▸ List.mem_cons_self s0 S')
      have hs0' : sortable cli s0 = false := by
        rw [skip_pred_eq_not_sortable] at hs0
        simpa using hs0
      have h1 : ∀ T : List Rgba, (s0 :: T).takeWhile (sortable cli) = [] := by
        intro T
        rw [List.takeWhile_cons, if_neg (by simp [hs0'])]
      rw [List.cons_append, h1]
      simp

/-- Dropping the sortable run from a sorted row leaves the skip run
followed by the sorted remainder. -/
theorem dropWhile_sortable_sort_row (cli : Cli) (l : List Rgba) :
    (sort_row cli l).dropWhile (sortable cli) =
      (l.dropWhile (sortable cli)).takeWhile (skip_pred cli) ++
        sort_row cli ((l.dropWhile (sortable cli)).dropWhile (skip_pred cli)) := by
  cases l with
  | nil => simp [sort_row_nil]
  | cons x xs =>
    rw [sort_row_cons, List.append_assoc,
      dropWhile_append_all (sortable cli) _ _
        (fun y hy => sortable_of_mem_sort_seg_takeWhile cli (x :: xs) hy)]
    cases hS : ((x :: xs).dropWhile (sortable cli)).takeWhile (skip_pred cli) with
    | nil =>
      have hR : (x :: xs).dropWhile (sortable cli) = [] := skip_run_nil cli (x :: xs) hS
      rw [hR]
      simp [sort_row_nil]
    | cons s0 S' =>
      have hs0 : skip_pred cli s0 = true :=
        List.mem_takeWhile_imp (hS ▸ List.mem_cons_self s0 S')
      have hs0' : sortable cli s0 = false := by
        rw [skip_pred_eq_not_sortable] at hs0
        simpa using hs0
      have h2 : ∀ T : List Rgba, (s0 :: T).dropWhile (sortable cli) = s0 :: T := by
        intro T
        rw [List.dropWhile_cons, if_neg (by simp [hs0'])]
      rw [List.cons_append, h2]

/-- Applying the row loop twice with the same configuration gives the
same row as applying it once (bounded-length induction form). -/
theorem sort_row_idem_bounded (cli : Cli) :
    ∀ (n : Nat) (l : List Rgba), l.length ≤ n →
      sort_row cli (sort_row cli l) = sort_row cli l := by
  intro n
  induction n with
  | zero =>
    intro l h
    have : l = [] := List.eq_nil_of_length_eq_zero (Nat.le_zero.mp h)
    subst this
    rw [sort_row_nil, sort_row_nil]
  | succ n ih =>
    intro l hlen
    cases l with
    | nil => rw [sort_row_nil, sort_row_nil]
    | cons x xs =>
      have hne : sort_row cli (x :: xs) ≠ [] := by
        apply List.ne_nil_of_length_pos
        rw [sort_row_length]
        simp
      have hS_all : ∀ y ∈ ((x :: xs).dropWhile (sortable cli)).takeWhile (skip_pred cli),
          skip_pred cli y = true := fun y hy => List.mem_takeWhile_imp hy
      have hR2_head := rest2_head_sortable cli ((x :: xs).dropWhile (sortable cli))
      have hrec : sort_row cli (sort_row cli (((x :: xs).dropWhile (sortable cli)).dropWhile
          (skip_pred cli))) = sort_row cli (((x :: xs).dropWhile (sortable cli)).dropWhile
          (skip_pred cli)) := by
        apply ih
        have := rest2_length_lt cli x xs
        simp only [List.length_cons] at this hlen
        omega
      rw [sort_row_decomp cli (sort_row cli (x :: xs)) hne,
        takeWhile_sortable_sort_row, dropWhile_sortable_sort_row,
        takeWhile_skip_append_sort_row cli _ _ hS_all hR2_head,
        dropWhile_skip_append_sort_row cli _ _ hS_all hR2_head,
        sort_seg_idem, hrec, ← sort_row_cons]

/-! ### The run decomposition of a sorted row -/

theorem good_runs_nil (cli : Cli) : good_runs cli [] = [] := rfl

theorem good_runs_aux_cons (cli : Cli) (fuel : Nat) (x : Rgba) (xs : List Rgba) :
    good_runs_aux cli (fuel + 1) (x :: xs) =
      (x :: xs).takeWhile (sortable cli) ::
        good_runs_aux cli fuel
          (((x :: xs).dropWhile (sortable cli)).dropWhile (skip_pred cli)) :=
  rfl

theorem good_runs_aux_fuel_irrel (cli : Cli) :
    ∀ fuel₁ fuel₂ (l : List Rgba), l.length ≤ fuel₁ → l.length ≤ fuel₂ →
      good_runs_aux cli fuel₁ l = good_runs_aux cli fuel₂ l := by
  intro fuel₁
  induction fuel₁ with
  | zero =>
    intro fuel₂ l h1 _
    have : l = [] := List.eq_nil_of_length_eq_zero (Nat.le_zero.mp h1)
    subst this
    cases fuel₂ <;> rfl
  | succ fuel ih =>
    intro fuel₂ l h1 h2
    cases l with
    | nil => cases fuel₂ <;> rfl
    | cons x xs =>
      cases fuel₂ with
      | zero => simp at h2
      | succ fuel₂' =>
        rw [good_runs_aux_cons, good_runs_aux_cons]
        have hlt := rest2_length_lt cli x xs
        have hr : (((x :: xs).dropWhile (sortable cli)).dropWhile
            (skip_pred cli)).length ≤ fuel := by
          simp only [List.length_cons] at h1 hlt ⊢
          omega
        have hr2 : (((x :: xs).dropWhile (sortable cli)).dropWhile
            (skip_pred cli)).length ≤ fuel₂' := by
          simp only [List.length_cons] at h2 hlt ⊢
          omega
        rw [ih fuel₂' _ hr hr2]

theorem good_runs_cons (cli : Cli) (x : Rgba) (xs : List Rgba) :
    good_runs cli (x :: xs) =
      (x :: xs).takeWhile (sortable cli) ::
        good_runs cli (((x :: xs).dropWhile (sortable cli)).dropWhile (skip_pred cli)) := by
  have hlt := rest2_length_lt cli x xs
  unfold good_runs
  rw [show (x :: xs).length = xs.length + 1 from rfl, good_runs_aux_cons]
  rw [good_runs_aux_fuel_irrel cli xs.length _ _ (by simp at hlt ⊢; omega) le_rfl]

theorem good_runs_decomp (cli : Cli) (l : List Rgba) (h : l ≠ []) :
    good_runs cli l =
      l.takeWhile (sortable cli) ::
        good_runs cli ((l.dropWhile (sortable cli)).dropWhile (skip_pred cli)) := by
  cases l with
  | nil => exact absurd rfl h
  | cons x xs => exact good_runs_cons cli x xs

/-- The maximal sortable runs of a sorted row are exactly the sorted
versions of the maximal sortable runs of the original row. -/
theorem good_runs_sort_row_bounded (cli : Cli) :
    ∀ (n : Nat) (l : List Rgba), l.length ≤ n →
      good_runs cli (sort_row cli l) = (good_runs cli l).map (sort_seg cli) := by
  intro n
  induction n with
  | zero =>
    intro l h
    have : l = [] := List.eq_nil_of_length_eq_zero (Nat.le_zero.mp h)
    subst this
    rw [sort_row_nil, good_runs_nil]
    rfl
  | succ n ih =>
    intro l hlen
    cases l with
    | nil =>
      rw [sort_row_nil, good_runs_nil]
      rfl
    | cons x xs =>
      have hne : sort_row cli (x :: xs) ≠ [] := by
        apply List.ne_nil_of_length_pos
        rw [sort_row_length]
        simp
      have hS_all : ∀ y ∈ ((x :: xs).dropWhile (sortable cli)).takeWhile (skip_pred cli),
          skip_pred cli y = true := fun y hy => List.mem_takeWhile_imp hy
      have hR2_head := rest2_head_sortable cli ((x :: xs).dropWhile (sortable cli))
      have hrec : good_runs cli (sort_row cli (((x :: xs).dropWhile (sortable cli)).dropWhile
          (skip_pred cli))) = (good_runs cli (((x :: xs).dropWhile (sortable cli)).dropWhile
          (skip_pred cli))).map (sort_seg cli) := by
        apply ih
        have := rest2_length_lt cli x xs
        simp only [List.length_cons] at this hlen
        omega
      rw [good_runs_decomp cli (sort_row cli (x :: xs)) hne,
        takeWhile_sortable_sort_row, dropWhile_sortable_sort_row,
        dropWhile_skip_append_sort_row cli _ _ hS_all hR2_head,
        hrec, good_runs_cons, List.map_cons]

/-! ### Pixels outside the sortable runs never move -/

/-- A pixel that fails the sortable predicate keeps its exact position
and value through the row loop (bounded-length induction form). -/
theorem sort_row_getElem?_not_sortable_bounded (cli : Cli) :
    ∀ (n : Nat) (l : List Rgba), l.length ≤ n → ∀ (i : Nat) (p : Rgba),
      l[i]? = some p → sortable cli p = false →
      (sort_row cli l)[i]? = some p := by
  intro n
  induction n with
  | zero =>
    intro l h i p hip _
    have : l = [] := List.eq_nil_of_length_eq_zero (Nat.le_zero.mp h)
    subst this
    simp at hip
  | succ n ih =>
    intro l hlen i p hip hsort
    cases l with
    | nil => simp at hip
    | cons x xs =>
      have hG : (x :: xs).takeWhile (sortable cli) ++
          (x :: xs).dropWhile (sortable cli) = x :: xs :=
        List.takeWhile_append_dropWhile (sortable cli) (x :: xs)
      have hR : ((x :: xs).dropWhile (sortable cli)).takeWhile (skip_pred cli) ++
          ((x :: xs).dropWhile (sortable cli)).dropWhile (skip_pred cli) =
            (x :: xs).dropWhile (sortable cli) :=
        List.takeWhile_append_dropWhile (skip_pred cli) _
      rw [sort_row_cons, List.append_assoc]
      rcases Nat.lt_or_ge i ((x :: xs).takeWhile (sortable cli)).length with hi | hi
      · exfalso
        have hip' : ((x :: xs).takeWhile (sortable cli))[i]? = some p := by
          have h0 : ((x :: xs).takeWhile (sortable cli) ++
              (x :: xs).dropWhile (sortable cli))[i]? = some p := by
            rw [hG]
            exact hip
          rwa [List.getElem?_append, if_pos hi] at h0
        have hmem : p ∈ (x :: xs).takeWhile (sortable cli) := List.getElem?_mem hip'
        have := List.mem_takeWhile_imp hmem
        rw [hsort] at this
        exact Bool.false_ne_true this
      · have hip2 : ((x :: xs).dropWhile (sortable cli))[i -
            ((x :: xs).takeWhile (sortable cli)).length]? = some p := by
          have h0 : ((x :: xs).takeWhile (sortable cli) ++
              (x :: xs).dropWhile (sortable cli))[i]? = some p := by
            rw [hG]
            exact hip
          rwa [List.getElem?_append, if_neg (Nat.not_lt.mpr hi)] at h0
        rw [List.getElem?_append, sort_seg_length, if_neg (Nat.not_lt.mpr hi)]
        rw [← hR, List.getElem?_append] at hip2
        rcases Nat.lt_or_ge (i - ((x :: xs).takeWhile (sortable cli)).length)
            (((x :: xs).dropWhile (sortable cli)).takeWhile (skip_pred cli)).length
          with hj | hj
        · rw [if_pos hj] at hip2
          rw [List.getElem?_append, if_pos hj]
          exact hip2
        · rw [if_neg (Nat.not_lt.mpr hj)] at hip2
          rw [List.getElem?_append, if_neg (Nat.not_lt.mpr hj)]
          apply ih
          · have := rest2_length_lt cli x xs
            simp only [List.length_cons] at this hlen ⊢
            omega
          · exact hip2
          · exact hsort

/-- A pixel that fails the sortable predicate keeps its exact position
and value through the row loop. -/
theorem sort_row_getElem?_not_sortable (cli : Cli) (l : List Rgba) (i : Nat) (p : Rgba)
    (hip : l[i]? = some p) (hsort : sortable cli p = false) :
    (sort_row cli l)[i]? = some p :=
  sort_row_getElem?_not_sortable_bounded cli l.length l le_rfl i p hip hsort

/-! ### Degenerate predicates: nothing sortable, everything sortable -/

/-- If no pixel satisfies the sortable predicate, the row loop leaves the
row untouched. -/
theorem sort_row_all_not_sortable (cli : Cli) (l : List Rgba)
    (h : ∀ p, sortable cli p = false) : sort_row cli l = l := by
  cases l with
  | nil => exact sort_row_nil cli
  | cons x xs =>
    rw [sort_row_cons]
    have hskip : ∀ p, skip_pred cli p = true := fun p => by
      rw [skip_pred_eq_not_sortable, h p]
      rfl
    have hGnil : (x :: xs).takeWhile (sortable cli) = [] := by
      rw [List.takeWhile_cons, if_neg (by simp [h x])]
    have hRfull : (x :: xs).dropWhile (sortable cli) = x :: xs := by
      rw [List.dropWhile_cons, if_neg (by simp [h x])]
    have hSfull : (x :: xs).takeWhile (skip_pred cli) = x :: xs :=
      List.takeWhile_eq_self_iff.mpr fun y _ => hskip y
    have hR2nil : (x :: xs).dropWhile (skip_pred cli) = [] :=
      List.dropWhile_eq_nil_iff.mpr fun y _ => hskip y
    rw [hGnil, hRfull, hSfull, hR2nil, sort_row_nil]
    simp [sort_seg, List.insertionSort]

/-- If every pixel satisfies the sortable predicate, the row loop sorts
the whole row as a single run. -/
theorem sort_row_all_sortable (cli : Cli) (l : List Rgba)
    (h : ∀ p, sortable cli p = true) : sort_row cli l = sort_seg cli l := by
  cases l with
  | nil =>
    rw [sort_row_nil]
    rfl
  | cons x xs =>
    rw [sort_row_cons]
    have hGfull : (x :: xs).takeWhile (sortable cli) = x :: xs :=
      List.takeWhile_eq_self_iff.mpr fun y _ => h y
    have hRnil : (x :: xs).dropWhile (sortable cli) = [] :=
      List.dropWhile_eq_nil_iff.mpr fun y _ => h y
    rw [hGfull, hRnil]
    simp [sort_row_nil]

/-! ### Arithmetic facts about the Hue heuristic -/

theorem absDiff_le_chroma_gb (p : Rgba) : absDiff p.g p.b ≤ pixel_chroma p := by
  unfold absDiff pixel_chroma pixel_max pixel_min
  split <;> omega

theorem absDiff_le_chroma_br (p : Rgba) : absDiff p.b p.r ≤ pixel_chroma p := by
  unfold absDiff pixel_chroma pixel_max pixel_min
  split <;> omega

theorem absDiff_le_chroma_rg (p : Rgba) : absDiff p.r p.g ≤ pixel_chroma p := by
  unfold absDiff pixel_chroma pixel_max pixel_min
  split <;> omega

theorem nat_div_le_one_of_le (d c : Nat) (h : d ≤ c) (hc : c ≠ 0) : d / c ≤ 1 := by
  calc d / c ≤ c / c := Nat.div_le_div_right h
    _ = 1 := Nat.div_self (Nat.pos_of_ne_zero hc)

/-- The channel index selected by the `max_by_key` scan, in closed form:
the LAST channel attaining the maximum (B whenever B is maximal, else G
whenever G is maximal, else R). -/
theorem hue_max_channel_idx (p : Rgba) :
    (hue_max_channel p).1 =
      if p.r ≤ p.b ∧ p.g ≤ p.b then 2 else if p.r ≤ p.g then 1 else 0 := by
  unfold hue_max_channel
  rcases le_or_lt p.r p.g with h1 | h1 <;>
    rcases le_or_lt p.g p.b with h2 | h2 <;>
      rcases le_or_lt p.r p.b with h3 | h3 <;>
        simp [h1, h2, h3, Nat.not_le.mpr, le_of_lt] <;>
          omega

theorem pixel_hue_eq_last_tiebreak_aux (p : Rgba) :
    pixel_hue p = pixel_hue_last_tiebreak p := by
  unfold pixel_hue pixel_hue_last_tiebreak
  by_cases hc : pixel_chroma p = 0
  · simp [hc]
  · rw [hue_max_channel_idx]
    by_cases hB : p.r ≤ p.b ∧ p.g ≤ p.b
    · rw [if_pos hB]
      simp [hc, hB]
    · rw [if_neg hB]
      by_cases hG : p.r ≤ p.g
      · rw [if_pos hG]
        simp [hc, hB, hG]
      · rw [if_neg hG]
        simp [hc, hB, hG]

/-! ### The effect of flipping `invert` on the sortable predicate -/

/-- With `invert` set, a pixel is sortable exactly when it passes the
alpha mask and is NOT sortable under the same configuration with `invert`
unset. -/
theorem sortable_invert_flip (mn mx : Nat) (f : Rgba → Nat) (rev ma : Bool) (p : Rgba) :
    sortable ⟨mn, mx, f, rev, true, ma⟩ p =
      (mask_fn ⟨mn, mx, f, rev, true, ma⟩ p &&
        !sortable ⟨mn, mx, f, rev, false, ma⟩ p) := by
  unfold sortable mask_fn
  cases h : (decide (mn ≤ f p) && decide (f p ≤ mx)) <;>
    cases hm : (ma && p.a == 0) <;>
      simp [h, hm]

/-! ### The claims -/

/-- C1, as stated, is false: with `mask_alpha = true` a pixel with alpha 0
is classified unsortable under BOTH invert settings, so the two position
sets are not complementary within the row.  Concretely: a one-pixel row
whose pixel has alpha 0, full range `[0, 255]`, Red heuristic. -/
theorem C1_counterexample :
    ¬ (sortable_positions ⟨0, 255, SortHeuristic.red.func, false, true, true⟩
          [⟨0, 0, 0, 0⟩] =
        Finset.range ([(⟨0, 0, 0, 0⟩ : Rgba)] : List Rgba).length \
          sortable_positions ⟨0, 255, SortHeuristic.red.func, false, false, true⟩
            [⟨0, 0, 0, 0⟩]) := by
  decide

/-- C1 (amended): for every row, fixed bounds and fixed `mask_alpha`, the
set of positions classified sortable under `invert = true` is exactly the
complement of the set classified sortable under `invert = false` WITHIN
the set of positions that pass the alpha mask (with `mask_alpha = false`
that set is the whole row, giving the original claim). -/
theorem C1_invert_complement_within_mask (mn mx : Nat) (f : Rgba → Nat) (rev ma : Bool)
    (row : List Rgba) :
    sortable_positions ⟨mn, mx, f, rev, true, ma⟩ row =
      mask_positions ⟨mn, mx, f, rev, true, ma⟩ row \
        sortable_positions ⟨mn, mx, f, rev, false, ma⟩ row := by
  ext i
  simp only [sortable_positions, mask_positions, Finset.mem_sdiff, Finset.mem_filter,
    Finset.mem_range]
  constructor
  · rintro ⟨hi, hs⟩
    rw [sortable_invert_flip, Bool.and_eq_true] at hs
    refine ⟨⟨hi, hs.1⟩, ?_⟩
    rintro ⟨-, hsf⟩
    have h2 := hs.2
    rw [hsf] at h2
    simp at h2
  · rintro ⟨⟨hi, hm⟩, hns⟩
    refine ⟨hi, ?_⟩
    rw [sortable_invert_flip, Bool.and_eq_true]
    refine ⟨hm, ?_⟩
    cases hsb : sortable ⟨mn, mx, f, rev, false, ma⟩ (row.getD i default)
    · rfl
    · exact absurd ⟨hi, hsb⟩ hns

/-- C2, as stated, is false: on the pixel (1, 1, 0, 255) the channels R
and G are tied for the maximum; resolving toward the FIRST channel (R)
would give hue 43, but the code returns 128 (the G branch), because
`max_by_key` keeps the LAST maximal element. -/
theorem C2_counterexample :
    pixel_hue ⟨1, 1, 0, 255⟩ = 128 ∧
      pixel_hue_first_tiebreak ⟨1, 1, 0, 255⟩ = 43 ∧
      pixel_hue ⟨1, 1, 0, 255⟩ ≠ pixel_hue_first_tiebreak ⟨1, 1, 0, 255⟩ := by
  decide

/-- C2 (amended): for every pixel, the Hue heuristic resolves the
"which channel is maximum" tie in favor of the LAST such channel in index
order (B, then G, then R): the code computes exactly the hue formula with
the last-maximal-channel branch selection. -/
theorem C2_hue_tiebreak_last (p : Rgba) :
    pixel_hue p = pixel_hue_last_tiebreak p :=
  pixel_hue_eq_last_tiebreak_aux p

/-- C3: for every row and configuration, the multiset of pixel values in
the row after `sort_row` equals the multiset before; only positions
change. -/
theorem C3_multiset_preservation (cli : Cli) (l : List Rgba) :
    ((sort_row cli l : List Rgba) : Multiset Rgba) = (l : Multiset Rgba) :=
  Multiset.coe_eq_coe.mpr (sort_row_perm cli l)

/-- C4: for every row and configuration, applying `sort_row` twice with
the same configuration yields the same row as applying it once. -/
theorem C4_idempotent (cli : Cli) (l : List Rgba) :
    sort_row cli (sort_row cli l) = sort_row cli l :=
  sort_row_idem_bounded cli l.length l le_rfl

/-- C5: in the output of `sort_row`, every maximal sortable run has
heuristic values non-decreasing left-to-right when `reverse = false` and
non-increasing when `reverse = true`. -/
theorem C5_sorted_runs (cli : Cli) (l run : List Rgba)
    (h : run ∈ good_runs cli (sort_row cli l)) :
    (cli.reverse = false →
      List.Sorted (fun a b => cli.sort_fn a ≤ cli.sort_fn b) run) ∧
    (cli.reverse = true →
      List.Sorted (fun a b => cli.sort_fn b ≤ cli.sort_fn a) run) := by
  rw [good_runs_sort_row_bounded cli l.length l le_rfl] at h
  obtain ⟨r0, _, hr0⟩ := List.mem_map.mp h
  subst hr0
  have hs := sort_seg_sorted cli r0
  constructor
  · intro hrev
    exact hs.imp fun {a b} hab => by simpa [sort_le, hrev] using hab
  · intro hrev
    exact hs.imp fun {a b} hab => by simpa [sort_le, hrev] using hab

/-- Witness for C5: Red heuristic, full range: the whole row is one
sortable run and comes out sorted ascending. -/
theorem C5_witness :
    (((⟨0, 255, SortHeuristic.red.func, false, false, false⟩ : Cli).reverse = false →
      List.Sorted (fun a b =>
        (⟨0, 255, SortHeuristic.red.func, false, false, false⟩ : Cli).sort_fn a ≤
          (⟨0, 255, SortHeuristic.red.func, false, false, false⟩ : Cli).sort_fn b)
        [⟨5, 0, 0, 255⟩, ⟨100, 0, 0, 255⟩, ⟨200, 0, 0, 255⟩]) ∧
    ((⟨0, 255, SortHeuristic.red.func, false, false, false⟩ : Cli).reverse = true →
      List.Sorted (fun a b =>
        (⟨0, 255, SortHeuristic.red.func, false, false, false⟩ : Cli).sort_fn b ≤
          (⟨0, 255, SortHeuristic.red.func, false, false, false⟩ : Cli).sort_fn a)
        [⟨5, 0, 0, 255⟩, ⟨100, 0, 0, 255⟩, ⟨200, 0, 0, 255⟩])) :=
  C5_sorted_runs ⟨0, 255, SortHeuristic.red.func, false, false, false⟩
    [⟨200, 0, 0, 255⟩, ⟨5, 0, 0, 255⟩, ⟨100, 0, 0, 255⟩]
    [⟨5, 0, 0, 255⟩, ⟨100, 0, 0, 255⟩, ⟨200, 0, 0, 255⟩]
    (by decide)

/-- C6: when `minimum > maximum` no pixel is in range, so with
`invert = false` the row is untouched, and with `invert = true` (and
`mask_alpha = false`) the whole row is one sortable run and is sorted
whole. -/
theorem C6_min_gt_max (f : Rgba → Nat) (mn mx : Nat) (rev ma : Bool) (l : List Rgba)
    (h : mx < mn) :
    sort_row ⟨mn, mx, f, rev, false, ma⟩ l = l ∧
      (ma = false → sort_row ⟨mn, mx, f, rev, true, ma⟩ l =
        sort_seg ⟨mn, mx, f, rev, true, ma⟩ l) := by
  have hA : ∀ q : Rgba, (decide (mn ≤ f q) && decide (f q ≤ mx)) = false := by
    intro q
    rcases Nat.lt_or_ge (f q) mn with h1 | h1
    · simp [Nat.not_le.mpr h1]
    · have h2 : ¬ f q ≤ mx := by omega
      simp [h2]
  constructor
  · apply sort_row_all_not_sortable
    intro q
    simp [sortable, hA q]
  · intro hma
    subst hma
    apply sort_row_all_sortable
    intro q
    simp [sortable, mask_fn, hA q]

/-- Witness for C6: bounds 5 > 3, Red heuristic: without invert the row
is untouched; with invert it is sorted whole. -/
theorem C6_witness :
    sort_row ⟨5, 3, SortHeuristic.red.func, false, false, false⟩
        [⟨10, 0, 0, 255⟩, ⟨200, 0, 0, 255⟩, ⟨5, 0, 0, 255⟩] =
      [⟨10, 0, 0, 255⟩, ⟨200, 0, 0, 255⟩, ⟨5, 0, 0, 255⟩] ∧
      (false = false → sort_row ⟨5, 3, SortHeuristic.red.func, false, true, false⟩
          [⟨10, 0, 0, 255⟩, ⟨200, 0, 0, 255⟩, ⟨5, 0, 0, 255⟩] =
        sort_seg ⟨5, 3, SortHeuristic.red.func, false, true, false⟩
          [⟨10, 0, 0, 255⟩, ⟨200, 0, 0, 255⟩, ⟨5, 0, 0, 255⟩]) :=
  C6_min_gt_max SortHeuristic.red.func 5 3 false false
    [⟨10, 0, 0, 255⟩, ⟨200, 0, 0, 255⟩, ⟨5, 0, 0, 255⟩] (by decide)

/-- C7: one iteration of the segmentation loop on a nonempty remainder
consumes a strictly positive number of pixels (the sortable run plus the
following skip run), so the cursor strictly advances toward the row
length. -/
theorem C7_segmentation_progress (cli : Cli) (x : Rgba) (xs : List Rgba) :
    0 < ((x :: xs).takeWhile (sortable cli)).length +
        (((x :: xs).dropWhile (sortable cli)).takeWhile (skip_pred cli)).length ∧
      (((x :: xs).dropWhile (sortable cli)).dropWhile (skip_pred cli)).length <
        (x :: xs).length := by
  refine ⟨?_, rest2_length_lt cli x xs⟩
  cases h : sortable cli x with
  | true =>
    have h1 : (x :: xs).takeWhile (sortable cli) =
        x :: xs.takeWhile (sortable cli) := by
      rw [List.takeWhile_cons, if_pos h]
    rw [h1]
    simp
  | false =>
    have h1 : (x :: xs).takeWhile (sortable cli) = [] := by
      rw [List.takeWhile_cons, if_neg (by simp [h])]
    have h2 : (x :: xs).dropWhile (sortable cli) = x :: xs := by
      rw [List.dropWhile_cons, if_neg (by simp [h])]
    have hs : skip_pred cli x = true := by
      rw [skip_pred_eq_not_sortable, h]
      rfl
    have h3 : (x :: xs).takeWhile (skip_pred cli) =
        x :: xs.takeWhile (skip_pred cli) := by
      rw [List.takeWhile_cons, if_pos hs]
    rw [h1, h2, h3]
    simp

/-- C8: with `mask_alpha = true`, a pixel whose alpha channel is 0 keeps
its exact position (and value) through `sort_row`, whatever its heuristic
value or range membership. -/
theorem C8_mask_alpha_fixed (cli : Cli) (l : List Rgba) (i : Nat) (p : Rgba)
    (hmask : cli.mask_alpha = true) (hp : l[i]? = some p) (ha : p.a = 0) :
    (sort_row cli l)[i]? = some p := by
  apply sort_row_getElem?_not_sortable cli l i p hp
  simp [sortable, mask_fn, hmask, ha]

/-- Witness for C8: a fully transparent pixel with the largest Red value
stays in front even though sorting would move it. -/
theorem C8_witness :
    (sort_row ⟨0, 255, SortHeuristic.red.func, false, false, true⟩
        [⟨7, 0, 0, 0⟩, ⟨1, 0, 0, 255⟩])[0]? = some ⟨7, 0, 0, 0⟩ :=
  C8_mask_alpha_fixed ⟨0, 255, SortHeuristic.red.func, false, false, true⟩
    [⟨7, 0, 0, 0⟩, ⟨1, 0, 0, 255⟩] 0 ⟨7, 0, 0, 0⟩ rfl (by decide) rfl

/-- C9: every pixel that fails the sortable predicate (i.e. lies in a
skip run) keeps both its exact value and its exact position through
`sort_row`. -/
theorem C9_skip_run_fixity (cli : Cli) (l : List Rgba) (i : Nat) (p : Rgba)
    (hp : l[i]? = some p) (hns : sortable cli p = false) :
    (sort_row cli l)[i]? = some p :=
  sort_row_getElem?_not_sortable cli l i p hp hns

/-- Witness for C9: with range `[50, 255]` and Red heuristic, the pixel
with Red 10 at position 0 is below range and stays there. -/
theorem C9_witness :
    (sort_row ⟨50, 255, SortHeuristic.red.func, false, false, false⟩
        [⟨10, 0, 0, 255⟩, ⟨200, 0, 0, 255⟩, ⟨5, 0, 0, 255⟩, ⟨100, 0, 0, 255⟩])[0]? =
      some ⟨10, 0, 0, 255⟩ :=
  C9_skip_run_fixity ⟨50, 255, SortHeuristic.red.func, false, false, false⟩
    [⟨10, 0, 0, 255⟩, ⟨200, 0, 0, 255⟩, ⟨5, 0, 0, 255⟩, ⟨100, 0, 0, 255⟩] 0
    ⟨10, 0, 0, 255⟩ (by decide) (by decide)

/-- C10: the Hue heuristic only ever returns one of the six values 0, 43,
85, 128, 171, 214, because with nonzero chroma `c` the truncated quotient
`absDiff / c` is always 0 or 1 before the multiplication by 43. -/
theorem C10_hue_values (p : Rgba) :
    pixel_hue p = 0 ∨ pixel_hue p = 43 ∨ pixel_hue p = 85 ∨
      pixel_hue p = 128 ∨ pixel_hue p = 171 ∨ pixel_hue p = 214 := by
  simp only [pixel_hue]
  by_cases hc : pixel_chroma p = 0
  · simp [hc]
  · have h1 := nat_div_le_one_of_le _ _ (absDiff_le_chroma_gb p) hc
    have h2 := nat_div_le_one_of_le _ _ (absDiff_le_chroma_br p) hc
    have h3 := nat_div_le_one_of_le _ _ (absDiff_le_chroma_rg p) hc
    rw [if_neg hc, hue_max_channel_idx]
    by_cases hB : p.r ≤ p.b ∧ p.g ≤ p.b
    · rw [if_pos hB]
      rcases Nat.le_one_iff_eq_zero_or_eq_one.mp h3 with h | h <;> simp [h]
    · rw [if_neg hB]
      by_cases hG : p.r ≤ p.g
      · rw [if_pos hG]
        rcases Nat.le_one_iff_eq_zero_or_eq_one.mp h2 with h | h <;> simp [h]
      · rw [if_neg hG]
        rcases Nat.le_one_iff_eq_zero_or_eq_one.mp h1 with h | h <;> simp [h]
